import Mathlib

/-!
Verification development for the MyJournie tiered conversational-memory store
(src/backend/memory.py). The store keeps two tables, memory_active and
memory_archive, each row holding the six columns id, user_id, timestamp, role,
content, tags. Timestamps are modelled as natural numbers (the code orders rows
by a datetime column; only the order matters here). The nullable JSON tags
column is modelled as an optional list of strings. Tables are modelled as lists
in rowid (insertion) order; SQL ORDER BY timestamp is modelled as a stable sort
on that list.
-/

namespace MyJournie

/-- One row of memory_active / memory_archive: the six columns. -/
structure Record where
  id : String
  user_id : String
  timestamp : Nat
  role : String
  content : String
  tags : Option (List String)
deriving Repr, DecidableEq

/-- The store state: both tables, each in rowid (insertion) order. -/
structure Store where
  active : List Record
  archive : List Record
deriving Repr, DecidableEq

def Store.empty : Store := ⟨[], []⟩

/-- MemoryStore configuration: max_active_per_user and archive_batch_size. -/
structure Config where
  max_active_per_user : Nat
  archive_batch_size : Nat
deriving Repr, DecidableEq

/-- A tagger callable (user_id, role, content) -> tags; none models a raised
exception inside the tagger. -/
def Tagger : Type := String → String → String → Option (List String)

/-- Rows of a table belonging to one user, in rowid order
(models filter(user_id == uid)). -/
def recsFor (uid : String) (l : List Record) : List Record :=
  l.filter (fun r => r.user_id == uid)

/-- Stable insertion into a timestamp-ascending list: an element is placed
before the first element with an equal-or-larger timestamp, so earlier input
elements with equal timestamps stay first (SQLite returns rowid order on
ties). -/
def insertAsc (r : Record) : List Record → List Record
  | [] => [r]
  | x :: xs => if r.timestamp ≤ x.timestamp then r :: x :: xs else x :: insertAsc r xs

/-- ORDER BY timestamp ASC as a stable sort of the rowid-ordered table. -/
def sortByTsAsc (l : List Record) : List Record := l.foldr insertAsc []

/-- Stable insertion into a timestamp-descending list. -/
def insertDesc (r : Record) : List Record → List Record
  | [] => [r]
  | x :: xs => if x.timestamp ≤ r.timestamp then r :: x :: xs else x :: insertDesc r xs

/-- ORDER BY timestamp DESC as a stable sort of the rowid-ordered table. -/
def sortByTsDesc (l : List Record) : List Record := l.foldr insertDesc []

/-- dict.fromkeys deduplication: keep the first occurrence of each tag. -/
def dedupFirstAux (seen : List String) : List String → List String
  | [] => []
  | x :: xs => if x ∈ seen then dedupFirstAux seen xs else x :: dedupFirstAux (x :: seen) xs

def dedupFirst (l : List String) : List String := dedupFirstAux [] l

/-- The tag computation of add_memory: start from the caller tags (tags or []),
extend with each tagger's output, skipping taggers that raise, then
deduplicate keeping first occurrences. An empty tagger output extends the
accumulator with nothing, matching the falsy-skip in the code. -/
def computeTags (taggers : List Tagger) (user_id role content : String)
    (tags : Option (List String)) : List String :=
  dedupFirst (taggers.foldl (fun acc t =>
    match t user_id role content with
    | some t_tags => acc ++ t_tags
    | none => acc) (tags.getD []))

/-- The MemoryActive entry built by add_memory; the tags column stores NULL
when the final tag list is empty (tags or None). -/
def mkEntry (taggers : List Tagger) (id : String) (ts : Nat)
    (user_id role content : String) (tags : Option (List String)) : Record :=
  let finalTags := computeTags taggers user_id role content tags
  { id := id, user_id := user_id, timestamp := ts, role := role, content := content,
    tags := if finalTags = [] then none else some finalTags }

/-- Move one row from active to archive: insert an archive row copying the six
columns, delete the active row by primary key (the first id match in rowid
order; ids are unique in a real table). -/
def moveOne (st : Store) (item : Record) : Store :=
  let archive_item : Record :=
    { id := item.id, user_id := item.user_id, timestamp := item.timestamp,
      role := item.role, content := item.content, tags := item.tags }
  { active := st.active.eraseP (fun x => x.id == item.id),
    archive := st.archive ++ [archive_item] }

/-- The while loop of enforce_max_active_for_user: while n_to_move > 0, select
the oldest min(archive_batch_size, n_to_move) active rows of the user, stop if
the selection is empty, otherwise move each to archive and decrement
n_to_move by the batch length. -/
def enforceLoop (cfg : Config) (user_id : String) (st : Store) (n_to_move : Nat) : Store :=
  if h0 : n_to_move = 0 then st
  else
    if h1 : (sortByTsAsc (recsFor user_id st.active)).take
        (min cfg.archive_batch_size n_to_move) = [] then st
    else enforceLoop cfg user_id
      (((sortByTsAsc (recsFor user_id st.active)).take
        (min cfg.archive_batch_size n_to_move)).foldl moveOne st)
      (n_to_move - ((sortByTsAsc (recsFor user_id st.active)).take
        (min cfg.archive_batch_size n_to_move)).length)
termination_by n_to_move
decreasing_by
  exact Nat.sub_lt (Nat.pos_of_ne_zero h0) (List.length_pos.mpr h1)

/-- Retention enforcement for one user: if the user's active count exceeds
max_active_per_user, move the excess oldest rows to archive in batches. -/
def enforce_max_active_for_user (cfg : Config) (st : Store) (user_id : String) : Store :=
  if (recsFor user_id st.active).length ≤ cfg.max_active_per_user then st
  else enforceLoop cfg user_id st
    ((recsFor user_id st.active).length - cfg.max_active_per_user)

/-- add_memory: compute tags, insert the new row into active, then enforce the
per-user active bound. The row id and timestamp are inputs (uuid4 and
now_utc in the code). The function is total: the code performs no input
validation and never raises for empty user_id or role. -/
def add_memory (cfg : Config) (taggers : List Tagger) (st : Store)
    (id : String) (ts : Nat) (user_id role content : String)
    (tags : Option (List String)) : Store :=
  let entry := mkEntry taggers id ts user_id role content tags
  enforce_max_active_for_user cfg { st with active := st.active ++ [entry] } user_id

/-- The dict produced by to_dict: timestamp rendered (isoformat is injective,
kept as the Nat), tags or []. -/
structure RecordDict where
  id : String
  user_id : String
  timestamp : Nat
  role : String
  content : String
  tags : List String
deriving Repr, DecidableEq

def to_dict (r : Record) : RecordDict :=
  { id := r.id, user_id := r.user_id, timestamp := r.timestamp, role := r.role,
    content := r.content, tags := r.tags.getD [] }

/-- limit handling of get_memory: q.limit(limit) if limit else q.all(); a
missing limit and a zero limit (falsy) both return everything. -/
def capIf (limit : Option Nat) (l : List Record) : List Record :=
  match limit with
  | some n => if n = 0 then l else l.take n
  | none => l

/-- get_memory: active rows of the user ordered timestamp-desc (capped at
limit), and if include_archive the archive rows ordered timestamp-desc
(capped at limit) appended after all active results. -/
def get_memory (st : Store) (user_id : String) (limit : Option Nat)
    (include_archive : Bool) : List RecordDict :=
  let results := (capIf limit (sortByTsDesc (recsFor user_id st.active))).map to_dict
  if include_archive then
    results ++ (capIf limit (sortByTsDesc (recsFor user_id st.archive))).map to_dict
  else results

/-- get_relevant_memory: the recent_k most recent active rows of the user. -/
def get_relevant_memory (st : Store) (user_id : String) (recent_k : Nat) : List RecordDict :=
  ((sortByTsDesc (recsFor user_id st.active)).take recent_k).map to_dict

/-- The payload produced by export_memory. -/
structure ExportPayload where
  active : List RecordDict
  archive : List RecordDict
deriving Repr, DecidableEq

/-- export_memory: both tables dumped timestamp-ascending, optionally scoped
to one user; a falsy user_id (absent or empty) means a full dump. -/
def export_memory (st : Store) (user_id : Option String) : ExportPayload :=
  match user_id with
  | some uid =>
    if uid = "" then
      { active := (sortByTsAsc st.active).map to_dict,
        archive := (sortByTsAsc st.archive).map to_dict }
    else
      { active := (sortByTsAsc (recsFor uid st.active)).map to_dict,
        archive := (sortByTsAsc (recsFor uid st.archive)).map to_dict }
  | none =>
    { active := (sortByTsAsc st.active).map to_dict,
      archive := (sortByTsAsc st.archive).map to_dict }

/-- One entry of an import payload; none in a field means the key is absent
from the dict. -/
structure ImportRecord where
  id : Option String
  user_id : Option String
  timestamp : Option Nat
  role : Option String
  content : Option String
  tags : Option (List String)
deriving Repr, DecidableEq

structure ImportPayload where
  active : List ImportRecord
  archive : List ImportRecord
deriving Repr, DecidableEq

/-- The error taxonomy of the spec; a record missing user_id makes the import
fail (a KeyError in the code, classed as malformed caller input). -/
inductive MemError where
  | validationError
deriving Repr, DecidableEq

/-- Python x or d for an optional string field: an absent key or an empty
(falsy) string falls back to the default. -/
def orDefaultStr (v : Option String) (d : String) : String :=
  match v with
  | some s => if s = "" then d else s
  | none => d

/-- Build the row inserted by import_memory for one payload entry: id or a
fresh uuid, e[user_id] (KeyError when absent), timestamp or now (an exported
timestamp string is never falsy), role or user, content or the empty string,
tags as given. -/
def buildImportItem (uuid : Nat → String) (now : Nat) (k : Nat)
    (e : ImportRecord) : Option Record :=
  match e.user_id with
  | none => none
  | some u =>
    some { id := orDefaultStr e.id (uuid k),
           user_id := u,
           timestamp := e.timestamp.getD now,
           role := orDefaultStr e.role "user",
           content := orDefaultStr e.content "",
           tags := e.tags }

/-- session.merge: upsert by primary key id; replace the row with that id if
present, else append. -/
def upsert (l : List Record) (r : Record) : List Record :=
  if l.any (fun x => x.id == r.id) then l.map (fun x => if x.id == r.id then r else x)
  else l ++ [r]

/-- Process one payload list in order, upserting into the table; the first
entry missing user_id aborts the whole import. k indexes the fresh-uuid
supply. -/
def importList (uuid : Nat → String) (now : Nat) :
    List ImportRecord → Nat → List Record → Except MemError (List Record × Nat)
  | [], k, acc => .ok (acc, k)
  | e :: es, k, acc =>
    match buildImportItem uuid now k e with
    | none => .error .validationError
    | some item => importList uuid now es (k + 1) (upsert acc item)

/-- import_memory: clear both tables when merge is false, then upsert every
active entry and every archive entry; fails when any entry lacks user_id. -/
def import_memory (uuid : Nat → String) (now : Nat) (st : Store)
    (payload : ImportPayload) (merge : Bool) : Except MemError Store :=
  match importList uuid now payload.active 0
      (if merge then st else Store.empty).active with
  | .error err => .error err
  | .ok (newActive, k) =>
    match importList uuid now payload.archive k
        (if merge then st else Store.empty).archive with
    | .error err => .error err
    | .ok (newArchive, _) => .ok { active := newActive, archive := newArchive }

/-- An exported dict viewed as an import payload entry: all six keys are
present. -/
def RecordDict.toImport (d : RecordDict) : ImportRecord :=
  { id := some d.id, user_id := some d.user_id, timestamp := some d.timestamp,
    role := some d.role, content := some d.content, tags := some d.tags }

/-- An export payload passed back to import_memory. -/
def ExportPayload.toImport (p : ExportPayload) : ImportPayload :=
  { active := p.active.map RecordDict.toImport,
    archive := p.archive.map RecordDict.toImport }

/-- The ids present across both tiers, actives first (a multiset up to
permutation). -/
def storeIds (st : Store) : List String :=
  st.active.map Record.id ++ st.archive.map Record.id

open List

/-! ### Unfolding equations for the stable sorts -/

theorem insertAsc_nil (r : Record) : insertAsc r [] = [r] := rfl

theorem insertAsc_cons (r x : Record) (xs : List Record) :
    insertAsc r (x :: xs) =
      if r.timestamp ≤ x.timestamp then r :: x :: xs else x :: insertAsc r xs := rfl

theorem sortByTsAsc_nil : sortByTsAsc [] = [] := rfl

theorem sortByTsAsc_cons (x : Record) (xs : List Record) :
    sortByTsAsc (x :: xs) = insertAsc x (sortByTsAsc xs) := rfl

theorem insertDesc_nil (r : Record) : insertDesc r [] = [r] := rfl

theorem insertDesc_cons (r x : Record) (xs : List Record) :
    insertDesc r (x :: xs) =
      if x.timestamp ≤ r.timestamp then r :: x :: xs else x :: insertDesc r xs := rfl

theorem sortByTsDesc_nil : sortByTsDesc [] = [] := rfl

theorem sortByTsDesc_cons (x : Record) (xs : List Record) :
    sortByTsDesc (x :: xs) = insertDesc x (sortByTsDesc xs) := rfl

/-! ### The sorts are permutations -/

theorem insertAsc_perm (r : Record) (l : List Record) : insertAsc r l ~ r :: l := by
  induction l with
  | nil => exact .refl _
  | cons x xs ih =>
    by_cases h : r.timestamp ≤ x.timestamp
    · rw [insertAsc_cons, if_pos h]
    · rw [insertAsc_cons, if_neg h]
      exact (ih.cons x).trans (List.Perm.swap r x xs)

theorem sortByTsAsc_perm (l : List Record) : sortByTsAsc l ~ l := by
  induction l with
  | nil => exact .refl _
  | cons x xs ih => exact (insertAsc_perm x (sortByTsAsc xs)).trans (ih.cons x)

theorem insertDesc_perm (r : Record) (l : List Record) : insertDesc r l ~ r :: l := by
  induction l with
  | nil => exact .refl _
  | cons x xs ih =>
    by_cases h : x.timestamp ≤ r.timestamp
    · rw [insertDesc_cons, if_pos h]
    · rw [insertDesc_cons, if_neg h]
      exact (ih.cons x).trans (List.Perm.swap r x xs)

theorem sortByTsDesc_perm (l : List Record) : sortByTsDesc l ~ l := by
  induction l with
  | nil => exact .refl _
  | cons x xs ih => exact (insertDesc_perm x (sortByTsDesc xs)).trans (ih.cons x)

theorem mem_sortByTsAsc {a : Record} {l : List Record} : a ∈ sortByTsAsc l ↔ a ∈ l :=
  (sortByTsAsc_perm l).mem_iff

theorem mem_sortByTsDesc {a : Record} {l : List Record} : a ∈ sortByTsDesc l ↔ a ∈ l :=
  (sortByTsDesc_perm l).mem_iff

theorem length_sortByTsAsc (l : List Record) : (sortByTsAsc l).length = l.length :=
  (sortByTsAsc_perm l).length_eq

theorem length_sortByTsDesc (l : List Record) : (sortByTsDesc l).length = l.length :=
  (sortByTsDesc_perm l).length_eq

/-! ### The sorts sort -/

theorem insertAsc_pairwise (r : Record) (l : List Record)
    (h : l.Pairwise (fun a b => a.timestamp ≤ b.timestamp)) :
    (insertAsc r l).Pairwise (fun a b => a.timestamp ≤ b.timestamp) := by
  induction l with
  | nil => simp [insertAsc_nil]
  | cons x xs ih =>
    rcases List.pairwise_cons.mp h with ⟨hx, hxs⟩
    by_cases hc : r.timestamp ≤ x.timestamp
    · rw [insertAsc_cons, if_pos hc]
      refine List.pairwise_cons.mpr ⟨?_, h⟩
      intro b hb
      rcases List.mem_cons.mp hb with hb | hb
      · exact hb ▸ hc
      · exact le_trans hc (hx b hb)
    · rw [insertAsc_cons, if_neg hc]
      refine List.pairwise_cons.mpr ⟨?_, ih hxs⟩
      intro b hb
      rcases List.mem_cons.mp ((insertAsc_perm r xs).mem_iff.mp hb) with hb | hb
      · exact hb ▸ le_of_not_le hc
      · exact hx b hb

theorem sortByTsAsc_pairwise (l : List Record) :
    (sortByTsAsc l).Pairwise (fun a b => a.timestamp ≤ b.timestamp) := by
  induction l with
  | nil => simp [sortByTsAsc_nil]
  | cons x xs ih => exact insertAsc_pairwise x _ ih

theorem insertDesc_pairwise (r : Record) (l : List Record)
    (h : l.Pairwise (fun a b => b.timestamp ≤ a.timestamp)) :
    (insertDesc r l).Pairwise (fun a b => b.timestamp ≤ a.timestamp) := by
  induction l with
  | nil => simp [insertDesc_nil]
  | cons x xs ih =>
    rcases List.pairwise_cons.mp h with ⟨hx, hxs⟩
    by_cases hc : x.timestamp ≤ r.timestamp
    · rw [insertDesc_cons, if_pos hc]
      refine List.pairwise_cons.mpr ⟨?_, h⟩
      intro b hb
      rcases List.mem_cons.mp hb with hb | hb
      · exact hb ▸ hc
      · exact le_trans (hx b hb) hc
    · rw [insertDesc_cons, if_neg hc]
      refine List.pairwise_cons.mpr ⟨?_, ih hxs⟩
      intro b hb
      rcases List.mem_cons.mp ((insertDesc_perm r xs).mem_iff.mp hb) with hb | hb
      · exact hb ▸ le_of_not_le hc
      · exact hx b hb

theorem sortByTsDesc_pairwise (l : List Record) :
    (sortByTsDesc l).Pairwise (fun a b => b.timestamp ≤ a.timestamp) := by
  induction l with
  | nil => simp [sortByTsDesc_nil]
  | cons x xs ih => exact insertDesc_pairwise x _ ih

/-- The stable sort leaves an already timestamp-ascending list unchanged. -/
theorem sortByTsAsc_eq_of_sorted (l : List Record)
    (h : l.Pairwise (fun a b => a.timestamp ≤ b.timestamp)) : sortByTsAsc l = l := by
  induction l with
  | nil => rfl
  | cons x xs ih =>
    rcases List.pairwise_cons.mp h with ⟨hx, hxs⟩
    rw [sortByTsAsc_cons, ih hxs]
    cases xs with
    | nil => rfl
    | cons y ys => rw [insertAsc_cons, if_pos (hx y (by simp))]

/-! ### Filtering by user -/

theorem recsFor_nil (uid : String) : recsFor uid [] = [] := rfl

theorem recsFor_cons (uid : String) (x : Record) (xs : List Record) :
    recsFor uid (x :: xs) =
      if x.user_id = uid then x :: recsFor uid xs else recsFor uid xs := by
  by_cases h : x.user_id = uid
  · simp [recsFor, List.filter_cons, h]
  · simp [recsFor, List.filter_cons, h]

theorem recsFor_append (uid : String) (l₁ l₂ : List Record) :
    recsFor uid (l₁ ++ l₂) = recsFor uid l₁ ++ recsFor uid l₂ := by
  simp [recsFor, List.filter_append]

theorem mem_recsFor {uid : String} {x : Record} {l : List Record} :
    x ∈ recsFor uid l ↔ x ∈ l ∧ x.user_id = uid := by
  simp [recsFor, List.mem_filter]

/-! ### Primary-key deletion -/

/-- With distinct ids, delete-by-id removes exactly the given row. -/
theorem eraseP_id_eq_erase (l : List Record) (r : Record)
    (hnd : (l.map Record.id).Nodup) (hr : r ∈ l) :
    l.eraseP (fun x => x.id == r.id) = l.erase r := by
  induction l with
  | nil => cases hr
  | cons x xs ih =>
    rw [List.map_cons, List.nodup_cons] at hnd
    by_cases hx : r = x
    · subst hx
      simp [List.eraseP_cons, List.erase_cons]
    · have hrxs : r ∈ xs := (List.mem_cons.mp hr).resolve_left hx
      have hid : (x.id == r.id) = false := by
        refine beq_eq_false_iff_ne.mpr ?_
        intro he
        exact hnd.1 (he ▸ List.mem_map_of_mem Record.id hrxs)
      have hxr : (x == r) = false := by
        refine beq_eq_false_iff_ne.mpr ?_
        intro he
        exact hx he.symm
      simp only [List.eraseP_cons, List.erase_cons, hid, hxr, cond_false,
        Bool.false_eq_true, if_false]
      rw [ih hnd.2 hrxs]

/-- Erasing the freshly inserted element undoes the insertion. -/
theorem erase_insertAsc_self (x : Record) (L : List Record) (hx : x ∉ L) :
    (insertAsc x L).erase x = L := by
  induction L with
  | nil => simp [insertAsc_nil]
  | cons y ys ih =>
    have hxy : x ≠ y := fun he => hx (he ▸ List.mem_cons_self y ys)
    have hxys : x ∉ ys := fun hm => hx (List.mem_cons_of_mem y hm)
    have hyx : ¬ ((y == x) = true) := by
      simp only [beq_iff_eq]
      exact fun he => hxy he.symm
    by_cases hc : x.timestamp ≤ y.timestamp
    · rw [insertAsc_cons, if_pos hc, List.erase_cons, if_pos (by simp)]
    · rw [insertAsc_cons, if_neg hc, List.erase_cons, if_neg hyx, ih hxys]

/-- On a sorted list, stable insertion commutes with erasing another element. -/
theorem erase_insertAsc_comm (x r : Record) (L : List Record) (hrx : r ≠ x)
    (hL : L.Pairwise (fun a b => a.timestamp ≤ b.timestamp)) :
    (insertAsc x L).erase r = insertAsc x (L.erase r) := by
  have hxr : ¬ ((x == r) = true) := by
    simp only [beq_iff_eq]
    exact fun he => hrx he.symm
  induction L with
  | nil =>
    rw [insertAsc_nil, List.erase_cons, if_neg hxr, List.erase_nil, insertAsc_nil]
  | cons y ys ih =>
    rcases List.pairwise_cons.mp hL with ⟨hy, hys⟩
    by_cases hc : x.timestamp ≤ y.timestamp
    · rw [insertAsc_cons, if_pos hc]
      by_cases hyr : y = r
      · subst hyr
        rw [List.erase_cons, if_neg hxr, List.erase_cons, if_pos (by simp)]
        cases ys with
        | nil => rfl
        | cons z zs =>
          rw [insertAsc_cons,
            if_pos (le_trans hc (hy z (List.mem_cons_self z zs)))]
      · have hyr2 : ¬ ((y == r) = true) := by
          simp only [beq_iff_eq]
          exact hyr
        rw [List.erase_cons, if_neg hxr, List.erase_cons, if_neg hyr2,
          insertAsc_cons, if_pos hc]
    · rw [insertAsc_cons, if_neg hc]
      by_cases hyr : y = r
      · subst hyr
        rw [List.erase_cons, if_pos (by simp), List.erase_cons, if_pos (by simp)]
      · have hyr2 : ¬ ((y == r) = true) := by
          simp only [beq_iff_eq]
          exact hyr
        rw [List.erase_cons, if_neg hyr2, List.erase_cons, if_neg hyr2,
          insertAsc_cons, if_neg hc, ih hys]

/-- With distinct rows, the stable ascending sort commutes with erasing a
row. -/
theorem sortByTsAsc_erase (l : List Record) (r : Record) (hnd : l.Nodup) :
    sortByTsAsc (l.erase r) = (sortByTsAsc l).erase r := by
  induction l with
  | nil => rfl
  | cons x xs ih =>
    rcases List.nodup_cons.mp hnd with ⟨hx, hxs⟩
    by_cases hrx : r = x
    · subst hrx
      rw [List.erase_cons, if_pos (by simp), sortByTsAsc_cons,
        erase_insertAsc_self r _ (fun hm => hx (mem_sortByTsAsc.mp hm))]
    · have hxr2 : ¬ ((x == r) = true) := by
        simp only [beq_iff_eq]
        exact fun he => hrx he.symm
      rw [List.erase_cons, if_neg hxr2,
        sortByTsAsc_cons, sortByTsAsc_cons, ih hxs,
        erase_insertAsc_comm x r _ hrx (sortByTsAsc_pairwise xs)]

/-- Erasing a row of this user commutes with the user filter. -/
theorem recsFor_erase_of_user (l : List Record) (r : Record) (uid : String)
    (hq : r.user_id = uid) :
    recsFor uid (l.erase r) = (recsFor uid l).erase r := by
  induction l with
  | nil => rfl
  | cons x xs ih =>
    by_cases hx : x = r
    · subst hx
      rw [List.erase_cons, if_pos (by simp), recsFor_cons, if_pos hq,
        List.erase_cons, if_pos (by simp)]
    · rw [List.erase_cons, if_neg (by simp [hx])]
      by_cases hu : x.user_id = uid
      · rw [recsFor_cons, if_pos hu, recsFor_cons, if_pos hu,
          List.erase_cons, if_neg (by simp [hx]), ih]
      · rw [recsFor_cons, if_neg hu, recsFor_cons, if_neg hu, ih]

/-- Erasing a row of another user leaves this user's rows unchanged. -/
theorem recsFor_erase_of_ne (l : List Record) (r : Record) (uid2 : String)
    (hq : r.user_id ≠ uid2) :
    recsFor uid2 (l.erase r) = recsFor uid2 l := by
  induction l with
  | nil => rfl
  | cons x xs ih =>
    by_cases hx : x = r
    · subst hx
      rw [List.erase_cons, if_pos (by simp), recsFor_cons, if_neg hq]
    · rw [List.erase_cons, if_neg (by simp [hx]), recsFor_cons, recsFor_cons, ih]

/-! ### Batch migration -/

theorem moveOne_active (st : Store) (r : Record)
    (hnd : (st.active.map Record.id).Nodup) (hr : r ∈ st.active) :
    (moveOne st r).active = st.active.erase r :=
  eraseP_id_eq_erase st.active r hnd hr

theorem moveOne_archive (st : Store) (r : Record) :
    (moveOne st r).archive = st.archive ++ [r] := rfl

/-- Effect of migrating the batch of the k oldest active rows of a user:
the batch is appended to archive in ascending-timestamp order, the sorted
remainder of the user's active rows is exactly the dropped suffix, ids stay
distinct, the combined id multiset is unchanged, and other users' active rows
are untouched. -/
theorem moveBatch_spec (uid : String) (k : Nat) : ∀ (st : Store),
    (st.active.map Record.id).Nodup →
    ((((sortByTsAsc (recsFor uid st.active)).take k).foldl moveOne st).archive
        = st.archive ++ (sortByTsAsc (recsFor uid st.active)).take k) ∧
    sortByTsAsc (recsFor uid
        ((((sortByTsAsc (recsFor uid st.active)).take k).foldl moveOne st)).active)
        = (sortByTsAsc (recsFor uid st.active)).drop k ∧
    ((((sortByTsAsc (recsFor uid st.active)).take k).foldl moveOne st).active.map
        Record.id).Nodup ∧
    storeIds (((sortByTsAsc (recsFor uid st.active)).take k).foldl moveOne st)
        ~ storeIds st ∧
    (∀ uid2, uid2 ≠ uid →
      recsFor uid2 ((((sortByTsAsc (recsFor uid st.active)).take k).foldl moveOne st)).active
        = recsFor uid2 st.active) ∧
    (∀ x, x ∈ ((((sortByTsAsc (recsFor uid st.active)).take k).foldl moveOne st)).active →
      x ∈ st.active) := by
  induction k with
  | zero =>
    intro st hnd
    refine ⟨by simp, by simp, by simpa using hnd, ?_, fun uid2 _ => by simp,
      fun x hx => by simpa using hx⟩
    simp only [List.take_zero, List.foldl_nil]
    exact List.Perm.refl _
  | succ k ih =>
    intro st hnd
    cases hS : sortByTsAsc (recsFor uid st.active) with
    | nil =>
      refine ⟨by simp [hS], by simp [hS], by simpa [hS] using hnd, ?_,
        fun uid2 _ => by simp [hS], fun x hx => by simpa [hS] using hx⟩
      simp only [hS, List.take_nil, List.foldl_nil]
      exact List.Perm.refl _
    | cons s S' =>
      have hsmem : s ∈ recsFor uid st.active :=
        mem_sortByTsAsc.mp (by rw [hS]; exact List.mem_cons_self s S')
      obtain ⟨hsa, hsu⟩ := mem_recsFor.mp hsmem
      have hnd_recs : (recsFor uid st.active).Nodup :=
        (List.Nodup.of_map Record.id hnd).filter _
      have h1a : (moveOne st s).active = st.active.erase s :=
        moveOne_active st s hnd hsa
      have key : sortByTsAsc (recsFor uid (moveOne st s).active) = S' := by
        rw [h1a, recsFor_erase_of_user _ s uid hsu,
          sortByTsAsc_erase _ s hnd_recs, hS, List.erase_cons_head]
      have hnd1 : ((moveOne st s).active.map Record.id).Nodup := by
        rw [h1a]
        exact List.Nodup.sublist ((st.active.erase_sublist s).map Record.id) hnd
      obtain ⟨iha, ihs, ihn, ihp, iho, ihm⟩ := ih (moveOne st s) hnd1
      rw [key] at iha ihs ihn ihp iho ihm
      rw [List.take_succ_cons, List.foldl_cons]
      have hperm1 : storeIds (moveOne st s) ~ storeIds st := by
        have hpc : st.active.map Record.id ~
            s.id :: (st.active.erase s).map Record.id := by
          simpa using (List.perm_cons_erase hsa).map Record.id
        show (moveOne st s).active.map Record.id ++ (moveOne st s).archive.map Record.id
            ~ storeIds st
        rw [h1a, moveOne_archive, List.map_append]
        calc (st.active.erase s).map Record.id ++
              (st.archive.map Record.id ++ [s].map Record.id)
            ~ (st.active.erase s).map Record.id ++
              (s.id :: st.archive.map Record.id) :=
              List.Perm.append_left _ (by
                simpa using List.perm_append_singleton s.id (st.archive.map Record.id))
          _ ~ s.id :: ((st.active.erase s).map Record.id ++ st.archive.map Record.id) :=
              List.perm_middle
          _ ~ st.active.map Record.id ++ st.archive.map Record.id := by
              exact List.Perm.append_right _ hpc.symm
      refine ⟨?_, ?_, ihn, ihp.trans hperm1, ?_, ?_⟩
      · rw [iha, moveOne_archive, List.append_assoc, List.singleton_append]
      · rw [ihs, List.drop_succ_cons]
      · intro uid2 hne
        rw [iho uid2 hne, h1a,
          recsFor_erase_of_ne _ s uid2 (by rw [hsu]; exact fun he => hne he.symm)]
      · intro x hx
        exact (st.active.erase_sublist s).subset (h1a ▸ ihm x hx)

/-- Effect of the whole migration loop, by strong induction on n_to_move:
exactly the n oldest active rows of the user (ascending timestamp) are
appended to archive, the sorted remainder is the dropped suffix, ids stay
distinct, the combined id multiset is unchanged, other users untouched. -/
theorem enforceLoop_spec (cfg : Config) (uid : String)
    (habs : 1 ≤ cfg.archive_batch_size) :
    ∀ (n : Nat) (st : Store),
    (st.active.map Record.id).Nodup →
    n ≤ (recsFor uid st.active).length →
    (enforceLoop cfg uid st n).archive
        = st.archive ++ (sortByTsAsc (recsFor uid st.active)).take n ∧
    sortByTsAsc (recsFor uid (enforceLoop cfg uid st n).active)
        = (sortByTsAsc (recsFor uid st.active)).drop n ∧
    ((enforceLoop cfg uid st n).active.map Record.id).Nodup ∧
    storeIds (enforceLoop cfg uid st n) ~ storeIds st ∧
    (∀ uid2, uid2 ≠ uid →
      recsFor uid2 (enforceLoop cfg uid st n).active = recsFor uid2 st.active) ∧
    (∀ x, x ∈ (enforceLoop cfg uid st n).active → x ∈ st.active) := by
  intro n
  induction n using Nat.strong_induction_on with
  | _ n ih =>
    intro st hnd hn
    by_cases h0 : n = 0
    · subst h0
      have hstep : enforceLoop cfg uid st 0 = st := by
        rw [enforceLoop]
        exact dif_pos rfl
      rw [hstep]
      exact ⟨by simp, by simp, hnd, List.Perm.refl _, fun _ _ => rfl, fun x hx => hx⟩
    · have hS_len : n ≤ (sortByTsAsc (recsFor uid st.active)).length := by
        rw [length_sortByTsAsc]
        exact hn
      have hjn : min cfg.archive_batch_size n ≤ n := min_le_right _ _
      have hk1 : 1 ≤ min cfg.archive_batch_size n :=
        le_min habs (Nat.one_le_iff_ne_zero.mpr h0)
      have holen : ((sortByTsAsc (recsFor uid st.active)).take
          (min cfg.archive_batch_size n)).length = min cfg.archive_batch_size n := by
        rw [List.length_take]
        exact min_eq_left (le_trans hjn hS_len)
      have hone : (sortByTsAsc (recsFor uid st.active)).take
          (min cfg.archive_batch_size n) ≠ [] := by
        intro he
        rw [he] at holen
        simp only [List.length_nil] at holen
        omega
      have hstep : enforceLoop cfg uid st n =
          enforceLoop cfg uid
            (((sortByTsAsc (recsFor uid st.active)).take
              (min cfg.archive_batch_size n)).foldl moveOne st)
            (n - ((sortByTsAsc (recsFor uid st.active)).take
              (min cfg.archive_batch_size n)).length) := by
        rw [enforceLoop, dif_neg h0, dif_neg hone]
      obtain ⟨mba, mbs, mbn, mbp, mbo, mbm⟩ :=
        moveBatch_spec uid (min cfg.archive_batch_size n) st hnd
      have hlen1 : (recsFor uid (((sortByTsAsc (recsFor uid st.active)).take
          (min cfg.archive_batch_size n)).foldl moveOne st).active).length
          = (recsFor uid st.active).length - min cfg.archive_batch_size n := by
        rw [← length_sortByTsAsc, mbs, List.length_drop, length_sortByTsAsc]
      have hn1 : n - min cfg.archive_batch_size n ≤
          (recsFor uid (((sortByTsAsc (recsFor uid st.active)).take
            (min cfg.archive_batch_size n)).foldl moveOne st).active).length := by
        rw [hlen1]
        omega
      have harg : n - min cfg.archive_batch_size n < n := by
        omega
      obtain ⟨iha, ihs, ihn, ihp, iho, ihm⟩ :=
        ih (n - min cfg.archive_batch_size n) harg _ mbn hn1
      rw [hstep, holen]
      rw [mbs] at iha ihs
      constructor
      · rw [iha, mba, List.append_assoc, ← List.take_add,
          Nat.add_sub_cancel' hjn]
      constructor
      · rw [ihs, List.drop_drop, Nat.add_sub_cancel' hjn]
      refine ⟨ihn, ihp.trans mbp, ?_, ?_⟩
      · intro uid2 hne
        rw [iho uid2 hne, mbo uid2 hne]
      · intro x hx
        exact mbm x (ihm x hx)

/-- Effect of enforce_max_active_for_user: exactly the excess oldest active
rows of the user (ascending timestamp) move to archive, the user's active
count becomes min(count, max_active_per_user), ids stay distinct, the
combined id multiset is unchanged, and other users' rows are untouched. -/
theorem enforce_spec (cfg : Config) (st : Store) (uid : String)
    (habs : 1 ≤ cfg.archive_batch_size)
    (hnd : (st.active.map Record.id).Nodup) :
    (enforce_max_active_for_user cfg st uid).archive
        = st.archive ++ (sortByTsAsc (recsFor uid st.active)).take
            ((recsFor uid st.active).length - cfg.max_active_per_user) ∧
    (recsFor uid (enforce_max_active_for_user cfg st uid).active).length
        = min (recsFor uid st.active).length cfg.max_active_per_user ∧
    ((enforce_max_active_for_user cfg st uid).active.map Record.id).Nodup ∧
    storeIds (enforce_max_active_for_user cfg st uid) ~ storeIds st ∧
    (∀ uid2, uid2 ≠ uid →
      recsFor uid2 (enforce_max_active_for_user cfg st uid).active
        = recsFor uid2 st.active) ∧
    (∀ x, x ∈ (enforce_max_active_for_user cfg st uid).active → x ∈ st.active) ∧
    sortByTsAsc (recsFor uid (enforce_max_active_for_user cfg st uid).active)
        = (sortByTsAsc (recsFor uid st.active)).drop
            ((recsFor uid st.active).length - cfg.max_active_per_user) := by
  unfold enforce_max_active_for_user
  by_cases hle : (recsFor uid st.active).length ≤ cfg.max_active_per_user
  · rw [if_pos hle]
    refine ⟨?_, ?_, hnd, List.Perm.refl _, fun _ _ => rfl, fun x hx => hx, ?_⟩
    · rw [Nat.sub_eq_zero_of_le hle, List.take_zero, List.append_nil]
    · exact (min_eq_left hle).symm
    · rw [Nat.sub_eq_zero_of_le hle, List.drop_zero]
  · rw [if_neg hle]
    obtain ⟨la, ls, ln, lp, lo, lm⟩ :=
      enforceLoop_spec cfg uid habs
        ((recsFor uid st.active).length - cfg.max_active_per_user) st hnd
        (Nat.sub_le _ _)
    refine ⟨la, ?_, ln, lp, lo, lm, ls⟩
    rw [← length_sortByTsAsc, ls, List.length_drop, length_sortByTsAsc]
    omega

/-- add_memory is the insertion of the built entry followed by enforcement. -/
theorem add_memory_def (cfg : Config) (taggers : List Tagger) (st : Store)
    (id : String) (ts : Nat) (user_id role content : String)
    (tags : Option (List String)) :
    add_memory cfg taggers st id ts user_id role content tags
      = enforce_max_active_for_user cfg
          { st with active :=
              st.active ++ [mkEntry taggers id ts user_id role content tags] }
          user_id := rfl

theorem mkEntry_user_id (taggers : List Tagger) (id : String) (ts : Nat)
    (user_id role content : String) (tags : Option (List String)) :
    (mkEntry taggers id ts user_id role content tags).user_id = user_id := rfl

theorem recsFor_append_entry (uid : String) (l : List Record) (e : Record)
    (he : e.user_id = uid) : recsFor uid (l ++ [e]) = recsFor uid l ++ [e] := by
  rw [recsFor_append, recsFor_cons, if_pos he, recsFor_nil]

theorem recsFor_append_entry_ne (uid2 : String) (l : List Record) (e : Record)
    (he : e.user_id ≠ uid2) : recsFor uid2 (l ++ [e]) = recsFor uid2 l := by
  rw [recsFor_append, recsFor_cons, if_neg he, recsFor_nil, List.append_nil]

/-- Unfolding the migration loop at zero. -/
theorem enforceLoop_zero (cfg : Config) (uid : String) (st : Store) :
    enforceLoop cfg uid st 0 = st := by
  rw [enforceLoop]
  exact dif_pos rfl

/-- One unfolding step of the migration loop. -/
theorem enforceLoop_step (cfg : Config) (uid : String) (st : Store) (n : Nat)
    (h0 : ¬ n = 0)
    (h1 : ¬ (sortByTsAsc (recsFor uid st.active)).take
      (min cfg.archive_batch_size n) = []) :
    enforceLoop cfg uid st n = enforceLoop cfg uid
      (((sortByTsAsc (recsFor uid st.active)).take
        (min cfg.archive_batch_size n)).foldl moveOne st)
      (n - ((sortByTsAsc (recsFor uid st.active)).take
        (min cfg.archive_batch_size n)).length) := by
  rw [enforceLoop, dif_neg h0, dif_neg h1]

/-! ### The claims -/

/-- C1: after every successful sequential add call, the adding user's active
count is at most max_active_per_user while every other user's active rows are
untouched (so the bound holds for all users across any sequence of adds), and
whenever the count exceeded the bound before enforcement, enforcement leaves
the active count exactly max_active_per_user. -/
theorem claim_C1 (cfg : Config) (taggers : List Tagger) (st : Store)
    (id : String) (ts : Nat) (user_id role content : String)
    (tags : Option (List String))
    (habs : 1 ≤ cfg.archive_batch_size)
    (hnd : (st.active.map Record.id).Nodup)
    (hfresh : id ∉ st.active.map Record.id) :
    (recsFor user_id
        (add_memory cfg taggers st id ts user_id role content tags).active).length
      ≤ cfg.max_active_per_user ∧
    (∀ uid2, uid2 ≠ user_id →
      recsFor uid2 (add_memory cfg taggers st id ts user_id role content tags).active
        = recsFor uid2 st.active) ∧
    (cfg.max_active_per_user < (recsFor user_id st.active).length + 1 →
      (recsFor user_id
          (add_memory cfg taggers st id ts user_id role content tags).active).length
        = cfg.max_active_per_user) := by
  rw [add_memory_def]
  have hnd2 : (({ st with active :=
      st.active ++ [mkEntry taggers id ts user_id role content tags] } : Store).active.map
        Record.id).Nodup := by
    show ((st.active ++ [mkEntry taggers id ts user_id role content tags]).map
      Record.id).Nodup
    rw [List.map_append]
    refine List.Nodup.append hnd (by simp) ?_
    intro a ha hb
    simp only [List.map_cons, List.map_nil, List.mem_singleton] at hb
    have hb2 : a = id := hb
    exact hfresh (hb2 ▸ ha)
  obtain ⟨ea, el, en, ep, eo, em, es⟩ :=
    enforce_spec cfg
      { st with active := st.active ++ [mkEntry taggers id ts user_id role content tags] }
      user_id habs hnd2
  have hlen : (recsFor user_id ({ st with active :=
      st.active ++ [mkEntry taggers id ts user_id role content tags] } : Store).active).length
      = (recsFor user_id st.active).length + 1 := by
    show (recsFor user_id (st.active ++ [mkEntry taggers id ts user_id role content tags])).length
      = (recsFor user_id st.active).length + 1
    rw [recsFor_append_entry user_id st.active _ (mkEntry_user_id ..), List.length_append]
    rfl
  refine ⟨?_, ?_, ?_⟩
  · rw [el, hlen]
    exact min_le_right _ _
  · intro uid2 hne
    rw [eo uid2 hne]
    exact recsFor_append_entry_ne uid2 st.active _
      (by rw [mkEntry_user_id]; exact fun he => hne he.symm)
  · intro hover
    rw [el, hlen]
    omega

/-- C1 witness: with max_active_per_user = 2, archive_batch_size = 1, adding
to the empty store keeps the count within the bound. -/
theorem claim_C1_witness :
    (recsFor "u" (add_memory ⟨2, 1⟩ [] Store.empty "A" 1 "u" "user" "hi" none).active).length
      ≤ (⟨2, 1⟩ : Config).max_active_per_user :=
  (claim_C1 ⟨2, 1⟩ [] Store.empty "A" 1 "u" "user" "hi" none (by decide)
    (by simp [Store.empty]) (by simp [Store.empty])).1

/-- The FIFO scenario of the spec: max_active_per_user = 2,
archive_batch_size = 1, records A..D with timestamps 1..4 for one user. -/
def fifoConfig : Config := ⟨2, 1⟩

def fifoStore : Store :=
  add_memory fifoConfig [] (add_memory fifoConfig [] (add_memory fifoConfig []
    (add_memory fifoConfig [] Store.empty "A" 1 "u" "user" "a" none)
    "B" 2 "u" "user" "b" none) "C" 3 "u" "user" "c" none) "D" 4 "u" "user" "d" none

/-- Evaluation of the FIFO scenario through the four adds (the third and
fourth each trigger one batch migration of size one). -/
theorem fifo_eval : fifoStore =
    ⟨[⟨"C", "u", 3, "user", "c", none⟩, ⟨"D", "u", 4, "user", "d", none⟩],
     [⟨"A", "u", 1, "user", "a", none⟩, ⟨"B", "u", 2, "user", "b", none⟩]⟩ := by
  have h3 : add_memory fifoConfig []
      ⟨[⟨"A", "u", 1, "user", "a", none⟩, ⟨"B", "u", 2, "user", "b", none⟩], []⟩
      "C" 3 "u" "user" "c" none
      = ⟨[⟨"B", "u", 2, "user", "b", none⟩, ⟨"C", "u", 3, "user", "c", none⟩],
         [⟨"A", "u", 1, "user", "a", none⟩]⟩ := by
    rw [add_memory_def]
    show enforce_max_active_for_user fifoConfig
      ⟨[⟨"A", "u", 1, "user", "a", none⟩, ⟨"B", "u", 2, "user", "b", none⟩,
        ⟨"C", "u", 3, "user", "c", none⟩], []⟩ "u" = _
    unfold enforce_max_active_for_user
    rw [if_neg (by decide)]
    rw [enforceLoop_step _ _ _ _ (by decide) (by decide)]
    show enforceLoop fifoConfig "u"
      ⟨[⟨"B", "u", 2, "user", "b", none⟩, ⟨"C", "u", 3, "user", "c", none⟩],
       [⟨"A", "u", 1, "user", "a", none⟩]⟩ 0 = _
    exact enforceLoop_zero _ _ _
  have h4 : add_memory fifoConfig []
      ⟨[⟨"B", "u", 2, "user", "b", none⟩, ⟨"C", "u", 3, "user", "c", none⟩],
       [⟨"A", "u", 1, "user", "a", none⟩]⟩
      "D" 4 "u" "user" "d" none
      = ⟨[⟨"C", "u", 3, "user", "c", none⟩, ⟨"D", "u", 4, "user", "d", none⟩],
         [⟨"A", "u", 1, "user", "a", none⟩, ⟨"B", "u", 2, "user", "b", none⟩]⟩ := by
    rw [add_memory_def]
    show enforce_max_active_for_user fifoConfig
      ⟨[⟨"B", "u", 2, "user", "b", none⟩, ⟨"C", "u", 3, "user", "c", none⟩,
        ⟨"D", "u", 4, "user", "d", none⟩], [⟨"A", "u", 1, "user", "a", none⟩]⟩ "u" = _
    unfold enforce_max_active_for_user
    rw [if_neg (by decide)]
    rw [enforceLoop_step _ _ _ _ (by decide) (by decide)]
    show enforceLoop fifoConfig "u"
      ⟨[⟨"C", "u", 3, "user", "c", none⟩, ⟨"D", "u", 4, "user", "d", none⟩],
       [⟨"A", "u", 1, "user", "a", none⟩, ⟨"B", "u", 2, "user", "b", none⟩]⟩ 0 = _
    exact enforceLoop_zero _ _ _
  show add_memory fifoConfig [] (add_memory fifoConfig []
      ⟨[⟨"A", "u", 1, "user", "a", none⟩, ⟨"B", "u", 2, "user", "b", none⟩], []⟩
      "C" 3 "u" "user" "c" none) "D" 4 "u" "user" "d" none = _
  rw [h3, h4]

/-- C2: the retention enforcer evicts in strict FIFO order: it appends to
archive exactly the excess oldest active rows of the user, in ascending
timestamp order, batch by batch; in the spec's scenario (max 2, batch 1,
records A,B,C,D at t=1..4) the final state is Active = [C, D] and
Archive = [A, B], A migrated before B. -/
theorem claim_C2 :
    (∀ (cfg : Config) (st : Store) (uid : String),
      1 ≤ cfg.archive_batch_size → (st.active.map Record.id).Nodup →
      (enforce_max_active_for_user cfg st uid).archive
        = st.archive ++ (sortByTsAsc (recsFor uid st.active)).take
            ((recsFor uid st.active).length - cfg.max_active_per_user)) ∧
    fifoStore.active =
      [⟨"C", "u", 3, "user", "c", none⟩, ⟨"D", "u", 4, "user", "d", none⟩] ∧
    fifoStore.archive =
      [⟨"A", "u", 1, "user", "a", none⟩, ⟨"B", "u", 2, "user", "b", none⟩] := by
  refine ⟨?_, by rw [fifo_eval], by rw [fifo_eval]⟩
  intro cfg st uid habs hnd
  exact (enforce_spec cfg st uid habs hnd).1

/-- C2 witness: the general FIFO conjunct applied to a one-record store whose
single excess record is archived. -/
theorem claim_C2_witness :
    (enforce_max_active_for_user ⟨0, 1⟩ ⟨[⟨"A", "u", 1, "user", "a", none⟩], []⟩ "u").archive
      = [] ++ (sortByTsAsc (recsFor "u" [⟨"A", "u", 1, "user", "a", none⟩])).take
          ((recsFor "u" [⟨"A", "u", 1, "user", "a", none⟩]).length - 0) :=
  claim_C2.1 ⟨0, 1⟩ ⟨[⟨"A", "u", 1, "user", "a", none⟩], []⟩ "u" (by decide) (by decide)

/-- C3: migration preserves every migrated record exactly (all six fields:
any record in the archive after enforcement is either an old archive record
or literally one of the old active records), the multiset of ids across both
tiers is unchanged, and afterwards no record is in both tiers. -/
theorem claim_C3 (cfg : Config) (st : Store) (uid : String)
    (habs : 1 ≤ cfg.archive_batch_size)
    (hnd : (storeIds st).Nodup) :
    (∀ r, r ∈ (enforce_max_active_for_user cfg st uid).archive →
      r ∈ st.archive ∨ r ∈ st.active) ∧
    storeIds (enforce_max_active_for_user cfg st uid) ~ storeIds st ∧
    (storeIds (enforce_max_active_for_user cfg st uid)).Nodup ∧
    (∀ r, r ∈ (enforce_max_active_for_user cfg st uid).archive →
      r ∉ (enforce_max_active_for_user cfg st uid).active) := by
  have hndA : (st.active.map Record.id).Nodup := (List.nodup_append.mp hnd).1
  obtain ⟨ea, el, en, ep, eo, em, es⟩ := enforce_spec cfg st uid habs hndA
  have hres : (storeIds (enforce_max_active_for_user cfg st uid)).Nodup :=
    ep.nodup_iff.mpr hnd
  refine ⟨?_, ep, hres, ?_⟩
  · intro r hr
    rw [ea] at hr
    rcases List.mem_append.mp hr with hr | hr
    · exact Or.inl hr
    · exact Or.inr (mem_recsFor.mp (mem_sortByTsAsc.mp (List.take_subset _ _ hr))).1
  · intro r hr hra
    have h1 : r.id ∈ (enforce_max_active_for_user cfg st uid).active.map Record.id :=
      List.mem_map_of_mem Record.id hra
    have h2 : r.id ∈ (enforce_max_active_for_user cfg st uid).archive.map Record.id :=
      List.mem_map_of_mem Record.id hr
    exact (List.nodup_append.mp hres).2.2 h1 h2

/-- C3 witness: enforcement on a two-record store with max 1 leaves the id
multiset over both tiers unchanged. -/
theorem claim_C3_witness :
    storeIds (enforce_max_active_for_user ⟨1, 1⟩
        ⟨[⟨"A", "u", 1, "user", "a", none⟩, ⟨"B", "u", 2, "user", "b", none⟩], []⟩ "u")
      ~ storeIds ⟨[⟨"A", "u", 1, "user", "a", none⟩, ⟨"B", "u", 2, "user", "b", none⟩], []⟩ :=
  (claim_C3 ⟨1, 1⟩
    ⟨[⟨"A", "u", 1, "user", "a", none⟩, ⟨"B", "u", 2, "user", "b", none⟩], []⟩ "u"
    (by decide) (by decide)).2.1

/-- C4 counterexample: an add call whose user_id and role are both empty
succeeds and inserts the record — add_memory performs no validation, so the
claimed ValidationError failure (with nothing inserted) does not happen. -/
theorem claim_C4_counterexample :
    (add_memory ⟨500, 100⟩ [] Store.empty "id1" 1 "" "" "hello" none).active
      = [⟨"id1", "", 1, "", "hello", none⟩] := rfl

/-- C4 (amended): add performs no validation — for every input, including an
empty user_id or role, and every tagger configuration, including taggers that
raise, the call succeeds and the built record ends up stored in the store
(active or archive tier). -/
theorem claim_C4 (cfg : Config) (taggers : List Tagger) (st : Store)
    (id : String) (ts : Nat) (user_id role content : String)
    (tags : Option (List String))
    (habs : 1 ≤ cfg.archive_batch_size)
    (hnd : (st.active.map Record.id).Nodup)
    (hfresh : id ∉ st.active.map Record.id) :
    mkEntry taggers id ts user_id role content tags
      ∈ (add_memory cfg taggers st id ts user_id role content tags).active ++
        (add_memory cfg taggers st id ts user_id role content tags).archive := by
  rw [add_memory_def]
  have hnd2 : (({ st with active :=
      st.active ++ [mkEntry taggers id ts user_id role content tags] } : Store).active.map
        Record.id).Nodup := by
    show ((st.active ++ [mkEntry taggers id ts user_id role content tags]).map
      Record.id).Nodup
    rw [List.map_append]
    refine List.Nodup.append hnd (by simp) ?_
    intro a ha hb
    simp only [List.map_cons, List.map_nil, List.mem_singleton] at hb
    have hb2 : a = id := hb
    exact hfresh (hb2 ▸ ha)
  obtain ⟨ea, el, en, ep, eo, em, es⟩ :=
    enforce_spec cfg
      { st with active := st.active ++ [mkEntry taggers id ts user_id role content tags] }
      user_id habs hnd2
  have hmem : mkEntry taggers id ts user_id role content tags ∈
      sortByTsAsc (recsFor user_id ({ st with active :=
        st.active ++ [mkEntry taggers id ts user_id role content tags] } : Store).active) := by
    refine mem_sortByTsAsc.mpr (mem_recsFor.mpr ⟨?_, mkEntry_user_id ..⟩)
    exact List.mem_append_right _ (List.mem_singleton.mpr rfl)
  rw [← List.take_append_drop
    ((recsFor user_id ({ st with active :=
        st.active ++ [mkEntry taggers id ts user_id role content tags] } : Store).active).length
      - cfg.max_active_per_user)
    (sortByTsAsc (recsFor user_id ({ st with active :=
        st.active ++ [mkEntry taggers id ts user_id role content tags] } : Store).active))] at hmem
  rcases List.mem_append.mp hmem with hmem | hmem
  · refine List.mem_append_right _ ?_
    rw [ea]
    exact List.mem_append_right _ hmem
  · refine List.mem_append_left _ ?_
    rw [← es] at hmem
    exact (mem_recsFor.mp (mem_sortByTsAsc.mp hmem)).1

/-- C4 witness: the amended claim at an add with empty user_id and role and an
always-raising tagger. -/
theorem claim_C4_witness :
    mkEntry [fun _ _ _ => none] "id1" 1 "" "" "hello" none
      ∈ (add_memory ⟨500, 100⟩ [fun _ _ _ => none] Store.empty "id1" 1 "" "" "hello" none).active ++
        (add_memory ⟨500, 100⟩ [fun _ _ _ => none] Store.empty "id1" 1 "" "" "hello" none).archive :=
  claim_C4 ⟨500, 100⟩ [fun _ _ _ => none] Store.empty "id1" 1 "" "" "hello" none
    (by decide) (by simp [Store.empty]) (by simp [Store.empty])

/-- C5: get_relevant_memory returns at most recent_k records, all drawn from
the user's Active rows only (never from archive), ordered by timestamp
descending. -/
theorem claim_C5 (st : Store) (uid : String) (k : Nat) (hk : 1 ≤ k) :
    (get_relevant_memory st uid k).length ≤ k ∧
    (∀ d ∈ get_relevant_memory st uid k,
      ∃ r, r ∈ st.active ∧ r.user_id = uid ∧ to_dict r = d) ∧
    (get_relevant_memory st uid k).Pairwise
      (fun a b => b.timestamp ≤ a.timestamp) := by
  refine ⟨?_, ?_, ?_⟩
  · unfold get_relevant_memory
    rw [List.length_map, List.length_take]
    exact min_le_left _ _
  · intro d hd
    unfold get_relevant_memory at hd
    rcases List.mem_map.mp hd with ⟨r, hr, hrd⟩
    have hr2 := List.take_subset _ _ hr
    have hr3 := mem_recsFor.mp (mem_sortByTsDesc.mp hr2)
    exact ⟨r, hr3.1, hr3.2, hrd⟩
  · unfold get_relevant_memory
    refine List.Pairwise.map _ ?_
      ((sortByTsDesc_pairwise _).sublist (List.take_sublist _ _))
    intro a b hab
    exact hab

/-- C5 witness: with one archive-only user and k = 3 the result stays within
the bound (and by the other conjuncts contains no archive record). -/
theorem claim_C5_witness :
    (get_relevant_memory ⟨[], [⟨"X", "u", 9, "user", "x", none⟩]⟩ "u" 3).length ≤ 3 :=
  (claim_C5 ⟨[], [⟨"X", "u", 9, "user", "x", none⟩]⟩ "u" 3 (by decide)).1

/-- The tagger fold appends exactly the successful taggers' outputs. -/
theorem foldl_tagger_eq (uid role content : String) :
    ∀ (taggers : List Tagger) (base : List String),
    taggers.foldl (fun acc t =>
      match t uid role content with
      | some t_tags => acc ++ t_tags
      | none => acc) base
      = base ++ (taggers.filterMap (fun t => t uid role content)).flatten := by
  intro taggers
  induction taggers with
  | nil =>
    intro base
    simp
  | cons t ts ih =>
    intro base
    rw [List.foldl_cons]
    cases h : t uid role content with
    | none =>
      simp only [h]
      rw [ih, List.filterMap_cons, h]
    | some t_tags =>
      simp only [h]
      rw [ih, List.filterMap_cons, h, List.flatten_cons, List.append_assoc]

theorem computeTags_eq (taggers : List Tagger) (uid role content : String)
    (tags : Option (List String)) :
    computeTags taggers uid role content tags
      = dedupFirst (tags.getD [] ++
          (taggers.filterMap (fun t => t uid role content)).flatten) := by
  unfold computeTags
  rw [foldl_tagger_eq]

/-- The tags column of the built entry, read back as a list (tags or []). -/
theorem mkEntry_tags (taggers : List Tagger) (id : String) (ts : Nat)
    (user_id role content : String) (tags : Option (List String)) :
    (mkEntry taggers id ts user_id role content tags).tags.getD []
      = computeTags taggers user_id role content tags := by
  show (if computeTags taggers user_id role content tags = [] then none
      else some (computeTags taggers user_id role content tags)).getD []
    = computeTags taggers user_id role content tags
  by_cases h : computeTags taggers user_id role content tags = []
  · rw [if_pos h, h]
    rfl
  · rw [if_neg h]
    rfl

/-- C6: a raising tagger is skipped without aborting the add or affecting the
other taggers; the stored tag list is the caller tags followed by the
successful taggers' outputs in pipeline order, deduplicated keeping first
occurrences, so an always-failing tagger contributes nothing. -/
theorem claim_C6 (taggers1 taggers2 : List Tagger) (tFail : Tagger)
    (id : String) (ts : Nat) (user_id role content : String)
    (tags : Option (List String))
    (hFail : ∀ u r c, tFail u r c = none) :
    (mkEntry (taggers1 ++ tFail :: taggers2) id ts user_id role content tags).tags.getD []
        = (mkEntry (taggers1 ++ taggers2) id ts user_id role content tags).tags.getD [] ∧
    (∀ (taggers : List Tagger),
      (mkEntry taggers id ts user_id role content tags).tags.getD []
        = dedupFirst (tags.getD [] ++
            (taggers.filterMap (fun t => t user_id role content)).flatten)) := by
  constructor
  · rw [mkEntry_tags, mkEntry_tags, computeTags_eq, computeTags_eq,
      List.filterMap_append, List.filterMap_append, List.filterMap_cons, hFail]
  · intro taggers
    rw [mkEntry_tags, computeTags_eq]

/-- C6 witness: one succeeding tagger plus an always-failing one; the failing
tagger does not change the stored tags. -/
theorem claim_C6_witness :
    (mkEntry ([fun _ _ _ => some ["x"]] ++ (fun _ _ _ => none) :: [])
        "i" 1 "u" "user" "c" (some ["a"])).tags.getD []
      = (mkEntry ([fun _ _ _ => some ["x"]] ++ [])
        "i" 1 "u" "user" "c" (some ["a"])).tags.getD [] :=
  (claim_C6 [fun _ _ _ => some ["x"]] [] (fun _ _ _ => none)
    "i" 1 "u" "user" "c" (some ["a"]) (fun _ _ _ => rfl)).1

theorem capIf_sublist (limit : Option Nat) (l : List Record) : capIf limit l <+ l := by
  cases limit with
  | none => exact List.Sublist.refl l
  | some n =>
    show (if n = 0 then l else l.take n) <+ l
    split
    · exact List.Sublist.refl l
    · exact List.take_sublist n l

theorem capIf_length_of_pos (n : Nat) (hn : 1 ≤ n) (l : List Record) :
    (capIf (some n) l).length = min n l.length := by
  show (if n = 0 then l else l.take n).length = min n l.length
  rw [if_neg (by omega), List.length_take]

/-- C8: get with include_archive returns the selected active records ordered
timestamp-descending followed by the selected archive records ordered
timestamp-descending; the tiers are never interleaved — active records always
precede archive records, even when an archive record is newer (concrete last
conjunct: an archive record at t=5 still comes after an active record at
t=1). -/
theorem claim_C8 (st : Store) (uid : String) (limit : Option Nat) :
    get_memory st uid limit true
        = (capIf limit (sortByTsDesc (recsFor uid st.active))).map to_dict ++
          (capIf limit (sortByTsDesc (recsFor uid st.archive))).map to_dict ∧
    (∀ d ∈ (capIf limit (sortByTsDesc (recsFor uid st.active))).map to_dict,
      ∃ r, r ∈ st.active ∧ r.user_id = uid ∧ to_dict r = d) ∧
    (∀ d ∈ (capIf limit (sortByTsDesc (recsFor uid st.archive))).map to_dict,
      ∃ r, r ∈ st.archive ∧ r.user_id = uid ∧ to_dict r = d) ∧
    ((capIf limit (sortByTsDesc (recsFor uid st.active))).map to_dict).Pairwise
      (fun a b => b.timestamp ≤ a.timestamp) ∧
    ((capIf limit (sortByTsDesc (recsFor uid st.archive))).map to_dict).Pairwise
      (fun a b => b.timestamp ≤ a.timestamp) ∧
    get_memory ⟨[⟨"a", "u", 1, "user", "x", none⟩], [⟨"b", "u", 5, "user", "y", none⟩]⟩
        "u" none true
      = [⟨"a", "u", 1, "user", "x", []⟩, ⟨"b", "u", 5, "user", "y", []⟩] := by
  refine ⟨rfl, ?_, ?_, ?_, ?_, rfl⟩
  · intro d hd
    rcases List.mem_map.mp hd with ⟨r, hr, hrd⟩
    have hr2 := (capIf_sublist limit _).subset hr
    have hr3 := mem_recsFor.mp (mem_sortByTsDesc.mp hr2)
    exact ⟨r, hr3.1, hr3.2, hrd⟩
  · intro d hd
    rcases List.mem_map.mp hd with ⟨r, hr, hrd⟩
    have hr2 := (capIf_sublist limit _).subset hr
    have hr3 := mem_recsFor.mp (mem_sortByTsDesc.mp hr2)
    exact ⟨r, hr3.1, hr3.2, hrd⟩
  · refine List.Pairwise.map _ ?_
      ((sortByTsDesc_pairwise _).sublist (capIf_sublist limit _))
    intro a b hab
    exact hab
  · refine List.Pairwise.map _ ?_
      ((sortByTsDesc_pairwise _).sublist (capIf_sublist limit _))
    intro a b hab
    exact hab

/-- C10: with include_archive and a positive limit, the limit is applied to
each tier independently: the result is the capped active part followed by the
capped archive part, each of length at most limit, and the total length is
min(limit, active count) + min(limit, archive count) — reaching 2·limit when
both tiers are full enough (concretely 2 results for limit 1), never truncated
to limit overall. -/
theorem claim_C10 (st : Store) (uid : String) (l : Nat) (hl : 1 ≤ l) :
    (get_memory st uid (some l) true).length
        = min l (recsFor uid st.active).length + min l (recsFor uid st.archive).length ∧
    get_memory st uid (some l) true
        = (capIf (some l) (sortByTsDesc (recsFor uid st.active))).map to_dict ++
          (capIf (some l) (sortByTsDesc (recsFor uid st.archive))).map to_dict ∧
    ((capIf (some l) (sortByTsDesc (recsFor uid st.active))).map to_dict).length ≤ l ∧
    ((capIf (some l) (sortByTsDesc (recsFor uid st.archive))).map to_dict).length ≤ l ∧
    (get_memory ⟨[⟨"a", "u", 1, "user", "x", none⟩], [⟨"b", "u", 5, "user", "y", none⟩]⟩
        "u" (some 1) true).length = 2 := by
  refine ⟨?_, rfl, ?_, ?_, rfl⟩
  · show ((capIf (some l) (sortByTsDesc (recsFor uid st.active))).map to_dict ++
      (capIf (some l) (sortByTsDesc (recsFor uid st.archive))).map to_dict).length = _
    rw [List.length_append, List.length_map, List.length_map,
      capIf_length_of_pos l hl, capIf_length_of_pos l hl,
      length_sortByTsDesc, length_sortByTsDesc]
  · rw [List.length_map, capIf_length_of_pos l hl]
    exact min_le_left _ _
  · rw [List.length_map, capIf_length_of_pos l hl]
    exact min_le_left _ _

/-- C10 witness: limit 1 over a store with one active and one archive record
for the user gives a result of length 2 = min 1 1 + min 1 1. -/
theorem claim_C10_witness :
    (get_memory ⟨[⟨"a", "u", 1, "user", "x", none⟩], [⟨"b", "u", 5, "user", "y", none⟩]⟩
        "u" (some 1) true).length
      = min 1 (recsFor "u" [(⟨"a", "u", 1, "user", "x", none⟩ : Record)]).length
        + min 1 (recsFor "u" [(⟨"b", "u", 5, "user", "y", none⟩ : Record)]).length :=
  (claim_C10 ⟨[⟨"a", "u", 1, "user", "x", none⟩], [⟨"b", "u", 5, "user", "y", none⟩]⟩
    "u" 1 (by decide)).1

/-! ### Import processing -/

theorem importList_nil (uuid : Nat → String) (now : Nat) (k : Nat)
    (acc : List Record) : importList uuid now [] k acc = .ok (acc, k) := rfl

theorem importList_cons_none (uuid : Nat → String) (now : Nat)
    (e : ImportRecord) (es : List ImportRecord) (k : Nat) (acc : List Record)
    (h : buildImportItem uuid now k e = none) :
    importList uuid now (e :: es) k acc = .error .validationError := by
  unfold importList
  rw [h]

theorem importList_cons_some (uuid : Nat → String) (now : Nat)
    (e : ImportRecord) (es : List ImportRecord) (k : Nat) (acc : List Record)
    (item : Record) (h : buildImportItem uuid now k e = some item) :
    importList uuid now (e :: es) k acc
      = importList uuid now es (k + 1) (upsert acc item) := by
  conv_lhs => unfold importList
  rw [h]

theorem buildImportItem_none (uuid : Nat → String) (now : Nat) (k : Nat)
    (e : ImportRecord) (h : e.user_id = none) :
    buildImportItem uuid now k e = none := by
  unfold buildImportItem
  rw [h]

/-- A successful importList run saw user_id on every entry. -/
theorem importList_ok_user (uuid : Nat → String) (now : Nat) :
    ∀ (es : List ImportRecord) (k : Nat) (acc : List Record)
      (res : List Record × Nat),
    importList uuid now es k acc = .ok res → ∀ e ∈ es, e.user_id ≠ none := by
  intro es
  induction es with
  | nil =>
    intro k acc res h e he
    cases he
  | cons e0 es ih =>
    intro k acc res h e he
    cases hb : buildImportItem uuid now k e0 with
    | none =>
      rw [importList_cons_none uuid now e0 es k acc hb] at h
      cases h
    | some item =>
      rcases List.mem_cons.mp he with he0 | hes
      · subst he0
        intro hnone
        rw [buildImportItem_none uuid now k e hnone] at hb
        cases hb
      · exact ih (k + 1) (upsert acc item)
          res (by rw [← importList_cons_some uuid now e0 es k acc item hb]; exact h) e hes

/-- C9: an import whose payload contains a record missing user_id (in either
the active or the archive list) fails with ValidationError. -/
theorem claim_C9 (uuid : Nat → String) (now : Nat) (st : Store)
    (payload : ImportPayload) (merge : Bool)
    (h : ∃ e ∈ payload.active ++ payload.archive, e.user_id = none) :
    import_memory uuid now st payload merge = .error .validationError := by
  obtain ⟨e, he, hnone⟩ := h
  unfold import_memory
  cases h1 : importList uuid now payload.active 0
      (if merge then st else Store.empty).active with
  | error err =>
    cases err
    rfl
  | ok p =>
    rcases List.mem_append.mp he with hea | hea
    · exact absurd hnone (importList_ok_user uuid now payload.active 0 _ p h1 e hea)
    · obtain ⟨acc, k⟩ := p
      cases h2 : importList uuid now payload.archive k
          (if merge then st else Store.empty).archive with
      | error err =>
        cases err
        simp [h2]
      | ok q =>
        exact absurd hnone (importList_ok_user uuid now payload.archive k _ q h2 e hea)

/-- C9 witness: a one-record payload whose record has no user_id key. -/
theorem claim_C9_witness :
    import_memory (fun _ => "f") 9 Store.empty
        ⟨[⟨some "x", none, some 1, some "user", some "c", none⟩], []⟩ true
      = .error .validationError :=
  claim_C9 (fun _ => "f") 9 Store.empty
    ⟨[⟨some "x", none, some 1, some "user", some "c", none⟩], []⟩ true
    ⟨⟨some "x", none, some 1, some "user", some "c", none⟩, by simp, rfl⟩

/-! ### Round trip (export, import, export) -/

/-- What a record becomes after being exported and re-imported: role and id
kept (when non-empty), an absent tags column re-imported as the empty list. -/
def reimport (r : Record) : Record :=
  { id := r.id, user_id := r.user_id, timestamp := r.timestamp, role := r.role,
    content := r.content, tags := some (r.tags.getD []) }

theorem buildImportItem_reimport (uuid : Nat → String) (now : Nat) (k : Nat)
    (r : Record) (hid : r.id ≠ "") (hrole : r.role ≠ "") :
    buildImportItem uuid now k (RecordDict.toImport (to_dict r)) = some (reimport r) := by
  have h1 : orDefaultStr (some r.id) (uuid k) = r.id := by
    show (if r.id = "" then uuid k else r.id) = r.id
    rw [if_neg hid]
  have h2 : orDefaultStr (some r.role) "user" = r.role := by
    show (if r.role = "" then "user" else r.role) = r.role
    rw [if_neg hrole]
  have h3 : orDefaultStr (some r.content) "" = r.content := by
    show (if r.content = "" then "" else r.content) = r.content
    by_cases hc : r.content = ""
    · rw [if_pos hc, hc]
    · rw [if_neg hc]
  show some (⟨orDefaultStr (some r.id) (uuid k), r.user_id,
      (some r.timestamp).getD now, orDefaultStr (some r.role) "user",
      orDefaultStr (some r.content) "", some (r.tags.getD [])⟩ : Record)
    = some (reimport r)
  rw [h1, h2, h3]
  rfl

theorem upsert_append (acc : List Record) (r : Record)
    (h : ∀ a ∈ acc, a.id ≠ r.id) : upsert acc r = acc ++ [r] := by
  unfold upsert
  rw [if_neg ?_]
  intro hc
  rcases List.any_eq_true.mp hc with ⟨a, ha, hbeq⟩
  exact h a ha (beq_iff_eq.mp hbeq)

/-- Importing an exported list of records with distinct non-empty ids and
non-empty roles appends their reimport images in order. -/
theorem importList_reimport (uuid : Nat → String) (now : Nat) :
    ∀ (l : List Record) (k : Nat) (acc : List Record),
    (∀ r ∈ l, r.id ≠ "" ∧ r.role ≠ "") →
    (∀ r ∈ l, ∀ a ∈ acc, a.id ≠ r.id) →
    (l.map Record.id).Nodup →
    importList uuid now ((l.map to_dict).map RecordDict.toImport) k acc
      = .ok (acc ++ l.map reimport, k + l.length) := by
  intro l
  induction l with
  | nil =>
    intro k acc _ _ _
    simp [importList_nil]
  | cons r l ih =>
    intro k acc hfields hdisj hnd
    rw [List.map_cons, List.map_cons,
      importList_cons_some uuid now _ _ k acc (reimport r)
        (buildImportItem_reimport uuid now k r
          (hfields r (List.mem_cons_self r l)).1
          (hfields r (List.mem_cons_self r l)).2),
      upsert_append acc (reimport r)
        (fun a ha => hdisj r (List.mem_cons_self r l) a ha)]
    rw [List.map_cons, List.nodup_cons] at hnd
    rw [ih (k + 1) (acc ++ [reimport r])
      (fun x hx => hfields x (List.mem_cons_of_mem r hx))
      ?_ hnd.2]
    · rw [List.append_assoc]
      have hk : k + 1 + l.length = k + (l.length + 1) := by omega
      rw [hk]
      rfl
    · intro x hx a ha
      rcases List.mem_append.mp ha with ha | ha
      · exact hdisj x (List.mem_cons_of_mem r hx) a ha
      · rw [List.mem_singleton.mp ha]
        show r.id ≠ x.id
        intro he
        exact hnd.1 (he ▸ List.mem_map_of_mem Record.id hx)

/-- Lifting two successful importList runs to import_memory. -/
theorem import_memory_ok (uuid : Nat → String) (now : Nat) (st : Store)
    (payload : ImportPayload) (merge : Bool) (A R : List Record) (k k2 : Nat)
    (h1 : importList uuid now payload.active 0
      (if merge then st else Store.empty).active = .ok (A, k))
    (h2 : importList uuid now payload.archive k
      (if merge then st else Store.empty).archive = .ok (R, k2)) :
    import_memory uuid now st payload merge = .ok ⟨A, R⟩ := by
  unfold import_memory
  rw [h1]
  simp [h2]

theorem pairwise_map_reimport (l : List Record)
    (h : l.Pairwise (fun a b => a.timestamp ≤ b.timestamp)) :
    (l.map reimport).Pairwise (fun a b => a.timestamp ≤ b.timestamp) := by
  refine List.Pairwise.map _ ?_ h
  intro a b hab
  exact hab

/-- C7 counterexample: a store holding one record with an empty role (as add
itself produces, since it does not validate role) does not round-trip: the
empty role is re-imported as "user", so the second export differs from
the first. -/
theorem claim_C7_counterexample :
    import_memory (fun _ => "f") 99
        (add_memory ⟨5, 1⟩ [] Store.empty "A" 1 "u" "" "c" none)
        (export_memory (add_memory ⟨5, 1⟩ [] Store.empty "A" 1 "u" "" "c" none) none).toImport
        false
      = .ok ⟨[⟨"A", "u", 1, "user", "c", some []⟩], []⟩ ∧
    export_memory (⟨[⟨"A", "u", 1, "user", "c", some []⟩], []⟩ : Store) none
      ≠ export_memory (add_memory ⟨5, 1⟩ [] Store.empty "A" 1 "u" "" "c" none) none := by
  constructor
  · rfl
  · decide

/-- C7 (amended): export then import(merge=false) then export is the identity
for every store whose records all have a non-empty id and a non-empty role and
whose per-table ids are distinct; the counterexample shows the restriction on
role is necessary (an empty role is re-imported as "user"). -/
theorem claim_C7 (uuid : Nat → String) (now : Nat) (st : Store)
    (hndA : (st.active.map Record.id).Nodup)
    (hndR : (st.archive.map Record.id).Nodup)
    (hfields : ∀ r, r ∈ st.active ++ st.archive → r.id ≠ "" ∧ r.role ≠ "") :
    ∃ st2, import_memory uuid now st (export_memory st none).toImport false = .ok st2 ∧
      export_memory st2 none = export_memory st none := by
  have hndA2 : ((sortByTsAsc st.active).map Record.id).Nodup :=
    ((sortByTsAsc_perm st.active).map Record.id).nodup_iff.mpr hndA
  have hndR2 : ((sortByTsAsc st.archive).map Record.id).Nodup :=
    ((sortByTsAsc_perm st.archive).map Record.id).nodup_iff.mpr hndR
  have hA := importList_reimport uuid now (sortByTsAsc st.active) 0 []
    (fun r hr => hfields r (List.mem_append_left _ (mem_sortByTsAsc.mp hr)))
    (fun r _ a ha => absurd ha (List.not_mem_nil a))
    hndA2
  have hB := importList_reimport uuid now (sortByTsAsc st.archive)
    (0 + (sortByTsAsc st.active).length) []
    (fun r hr => hfields r (List.mem_append_right _ (mem_sortByTsAsc.mp hr)))
    (fun r _ a ha => absurd ha (List.not_mem_nil a))
    hndR2
  rw [List.nil_append] at hA hB
  refine ⟨⟨(sortByTsAsc st.active).map reimport, (sortByTsAsc st.archive).map reimport⟩,
    import_memory_ok uuid now st _ false _ _ _ _ hA hB, ?_⟩
  have hsortA : sortByTsAsc ((sortByTsAsc st.active).map reimport)
      = (sortByTsAsc st.active).map reimport :=
    sortByTsAsc_eq_of_sorted _ (pairwise_map_reimport _ (sortByTsAsc_pairwise st.active))
  have hsortR : sortByTsAsc ((sortByTsAsc st.archive).map reimport)
      = (sortByTsAsc st.archive).map reimport :=
    sortByTsAsc_eq_of_sorted _ (pairwise_map_reimport _ (sortByTsAsc_pairwise st.archive))
  show (⟨(sortByTsAsc ((sortByTsAsc st.active).map reimport)).map to_dict,
        (sortByTsAsc ((sortByTsAsc st.archive).map reimport)).map to_dict⟩ : ExportPayload)
    = export_memory st none
  rw [hsortA, hsortR, List.map_map, List.map_map]
  have hcomp : to_dict ∘ reimport = to_dict := funext (fun r => rfl)
  rw [hcomp]
  rfl

/-- C7 witness: the amended round trip on a concrete two-tier store with valid
roles and ids. -/
theorem claim_C7_witness :
    ∃ st2, import_memory (fun _ => "f") 99
        (⟨[⟨"A", "u", 1, "user", "a", none⟩], [⟨"B", "u", 2, "assistant", "b", some ["t"]⟩]⟩ : Store)
        (export_memory
          (⟨[⟨"A", "u", 1, "user", "a", none⟩], [⟨"B", "u", 2, "assistant", "b", some ["t"]⟩]⟩ : Store)
          none).toImport false = .ok st2 ∧
      export_memory st2 none
        = export_memory
            (⟨[⟨"A", "u", 1, "user", "a", none⟩], [⟨"B", "u", 2, "assistant", "b", some ["t"]⟩]⟩ : Store)
            none :=
  claim_C7 (fun _ => "f") 99
    ⟨[⟨"A", "u", 1, "user", "a", none⟩], [⟨"B", "u", 2, "assistant", "b", some ["t"]⟩]⟩
    (by decide) (by decide) (by decide)
end MyJournie
